import Mathlib

/-!
Verification of the streaming anomaly detector in `Data_Detection.py`
(function `anomaly_detection`).  Samples are modelled as rationals; the
Python loop

    data_stream = [data[0]]
    anomalies = []
    for i in range(1, len(data)):
        moving_average = alpha * data[i] + (1 - alpha) * data_stream[-1]
        data_stream.append(moving_average)
        deviation = data[i] - moving_average
        if np.abs(deviation) > z_value:
            anomalies.append((i, data[i]))
    return data_stream, anomalies

is embedded as a structural recursion over the tail of the input, carrying
the last smoothed value (`data_stream[-1]`) and the running index `i`.
Indexing an empty array (`data[0]`) fails in Python; this is modelled by
returning `none` on the empty signal.
-/

namespace DataDetection

/-- One pass of the Python `for i in range(1, len(data))` loop body over the
remaining samples `rest`, where `prev` is the current `data_stream[-1]` and
`i` is the index of the head of `rest` in the original signal.  Returns the
smoothed values appended to `data_stream` and the anomalies appended to
`anomalies`, in order. -/
def anomaly_detection_loop (alpha z_value : ℚ) (prev : ℚ) (i : ℕ) :
    List ℚ → List ℚ × List (ℕ × ℚ)
  | [] => ([], [])
  | x :: rest =>
      let moving_average := alpha * x + (1 - alpha) * prev
      let r := anomaly_detection_loop alpha z_value moving_average (i + 1) rest
      (moving_average :: r.1,
        if |x - moving_average| > z_value then (i, x) :: r.2 else r.2)

/-- The detector `anomaly_detection(data, alpha, z_value)` of
`Data_Detection.py`: seeds `data_stream` with `data[0]`, runs the smoothing
loop from index 1, and returns `(data_stream, anomalies)`.  On an empty
signal the seed read `data[0]` fails, modelled as `none`. -/
def anomaly_detection (data : List ℚ) (alpha z_value : ℚ) :
    Option (List ℚ × List (ℕ × ℚ)) :=
  match data with
  | [] => none
  | d0 :: rest =>
      let r := anomaly_detection_loop alpha z_value d0 1 rest
      some (d0 :: r.1, r.2)

/-- The `data_stream` (trend) output of the detector; `([], [])` is a dummy
for the empty-signal failure case, unused under the nonemptiness
hypotheses of the theorems below. -/
def trendOf (data : List ℚ) (alpha z_value : ℚ) : List ℚ :=
  ((anomaly_detection data alpha z_value).getD ([], [])).1

/-- The `anomalies` output of the detector. -/
def anomaliesOf (data : List ℚ) (alpha z_value : ℚ) : List (ℕ × ℚ) :=
  ((anomaly_detection data alpha z_value).getD ([], [])).2

/-- Unfolding `trendOf` on a nonempty signal. -/
theorem trendOf_cons (d0 : ℚ) (rest : List ℚ) (alpha z_value : ℚ) :
    trendOf (d0 :: rest) alpha z_value =
      d0 :: (anomaly_detection_loop alpha z_value d0 1 rest).1 := rfl

/-- Unfolding `anomaliesOf` on a nonempty signal. -/
theorem anomaliesOf_cons (d0 : ℚ) (rest : List ℚ) (alpha z_value : ℚ) :
    anomaliesOf (d0 :: rest) alpha z_value =
      (anomaly_detection_loop alpha z_value d0 1 rest).2 := rfl

/-- The loop appends exactly one smoothed value per remaining sample. -/
theorem loop_trend_length (alpha z_value prev : ℚ) (i : ℕ) (rest : List ℚ) :
    (anomaly_detection_loop alpha z_value prev i rest).1.length = rest.length := by
  induction rest generalizing prev i with
  | nil => rfl
  | cons x rest ih => simp [anomaly_detection_loop, ih]

/-- First smoothed value produced by the loop. -/
theorem loop_trend_getD_zero (alpha z_value prev : ℚ) (i : ℕ) (x : ℚ) (rest : List ℚ) :
    (anomaly_detection_loop alpha z_value prev i (x :: rest)).1.getD 0 0 =
      alpha * x + (1 - alpha) * prev := by
  simp [anomaly_detection_loop]

/-- The smoothed values produced by the loop satisfy the EWMA recurrence. -/
theorem loop_trend_getD_succ (alpha z_value prev : ℚ) (i : ℕ) (rest : List ℚ)
    (j : ℕ) (hj : j + 1 < rest.length) :
    (anomaly_detection_loop alpha z_value prev i rest).1.getD (j + 1) 0 =
      alpha * rest.getD (j + 1) 0 +
        (1 - alpha) * (anomaly_detection_loop alpha z_value prev i rest).1.getD j 0 := by
  induction rest generalizing prev i j with
  | nil => simp at hj
  | cons x rest ih =>
    match j with
    | 0 =>
      obtain ⟨y, rest, rfl⟩ :=
        List.exists_cons_of_ne_nil (show rest ≠ [] by rintro rfl; simp at hj)
      simp [anomaly_detection_loop]
    | j + 1 =>
      have hj2 : j + 1 < rest.length := by simpa using hj
      simpa [anomaly_detection_loop] using ih _ (i + 1) j hj2

/-- Every pair the loop appends to `anomalies` records an in-range index, the
original sample at that index, and a deviation from the same-step smoothed
value exceeding `z_value`. -/
theorem loop_mem_anomalies (alpha z_value prev : ℚ) (i : ℕ) (rest : List ℚ)
    (p : ℕ × ℚ) (hp : p ∈ (anomaly_detection_loop alpha z_value prev i rest).2) :
    ∃ j, j < rest.length ∧ p = (i + j, rest.getD j 0) ∧
      |rest.getD j 0 - (anomaly_detection_loop alpha z_value prev i rest).1.getD j 0| >
        z_value := by
  induction rest generalizing prev i with
  | nil => simp [anomaly_detection_loop] at hp
  | cons x rest ih =>
    simp only [anomaly_detection_loop] at hp ⊢
    split_ifs at hp with h
    · rcases List.mem_cons.mp hp with h0 | hmem
      · exact ⟨0, by simp, by simpa using h0, by simpa using h⟩
      · obtain ⟨j, hj, hpj, hcond⟩ := ih _ (i + 1) hmem
        refine ⟨j + 1, by simpa using hj, ?_, by simpa using hcond⟩
        rw [show i + (j + 1) = i + 1 + j by omega]
        simpa using hpj
    · obtain ⟨j, hj, hpj, hcond⟩ := ih _ (i + 1) hp
      refine ⟨j + 1, by simpa using hj, ?_, by simpa using hcond⟩
      rw [show i + (j + 1) = i + 1 + j by omega]
      simpa using hpj

/-- Conversely, every remaining sample whose deviation from the same-step
smoothed value exceeds `z_value` is appended to `anomalies`. -/
theorem loop_anomalies_complete (alpha z_value prev : ℚ) (i : ℕ) (rest : List ℚ)
    (j : ℕ) (hj : j < rest.length)
    (hcond : |rest.getD j 0 -
        (anomaly_detection_loop alpha z_value prev i rest).1.getD j 0| > z_value) :
    (i + j, rest.getD j 0) ∈ (anomaly_detection_loop alpha z_value prev i rest).2 := by
  induction rest generalizing prev i j with
  | nil => simp at hj
  | cons x rest ih =>
    match j with
    | 0 =>
      have hc : |x - (alpha * x + (1 - alpha) * prev)| > z_value := by
        simpa [anomaly_detection_loop] using hcond
      simp [anomaly_detection_loop, hc]
    | j + 1 =>
      have hj2 : j < rest.length := by simpa using hj
      have hcond2 : |rest.getD j 0 -
          (anomaly_detection_loop alpha z_value
            (alpha * x + (1 - alpha) * prev) (i + 1) rest).1.getD j 0| > z_value := by
        simpa [anomaly_detection_loop] using hcond
      have hmem := ih (alpha * x + (1 - alpha) * prev) (i + 1) j hj2 hcond2
      rw [show i + (j + 1) = i + 1 + j by omega]
      simp only [anomaly_detection_loop, List.getD_cons_succ]
      split_ifs with h
      · exact List.mem_cons_of_mem _ hmem
      · exact hmem

/-- Every anomaly index produced by the loop lies in `[i, i + rest.length)`. -/
theorem loop_anomalies_fst_bound (alpha z_value prev : ℚ) (i : ℕ) (rest : List ℚ)
    (p : ℕ × ℚ) (hp : p ∈ (anomaly_detection_loop alpha z_value prev i rest).2) :
    i ≤ p.1 ∧ p.1 < i + rest.length := by
  obtain ⟨j, hj, rfl, -⟩ := loop_mem_anomalies alpha z_value prev i rest p hp
  exact ⟨Nat.le_add_right i j, by omega⟩

/-- Anomaly indices are appended in strictly increasing order. -/
theorem loop_anomalies_pairwise (alpha z_value prev : ℚ) (i : ℕ) (rest : List ℚ) :
    (anomaly_detection_loop alpha z_value prev i rest).2.Pairwise
      (fun p q => p.1 < q.1) := by
  induction rest generalizing prev i with
  | nil => simp [anomaly_detection_loop]
  | cons x rest ih =>
    simp only [anomaly_detection_loop]
    split_ifs with h
    · refine List.Pairwise.cons ?_ (ih _ (i + 1))
      intro q hq
      have hb := (loop_anomalies_fst_bound alpha z_value _ (i + 1) rest q hq).1
      omega
    · exact ih _ (i + 1)

/-- Raising the threshold only removes anomalies: the list at the higher
threshold is a sublist of the one at the lower threshold. -/
theorem loop_anomalies_sublist (alpha t1 t2 prev : ℚ) (i : ℕ) (rest : List ℚ)
    (ht : t1 ≤ t2) :
    List.Sublist (anomaly_detection_loop alpha t2 prev i rest).2
      (anomaly_detection_loop alpha t1 prev i rest).2 := by
  induction rest generalizing prev i with
  | nil => simp [anomaly_detection_loop]
  | cons x rest ih =>
    simp only [anomaly_detection_loop]
    by_cases h2 : |x - (alpha * x + (1 - alpha) * prev)| > t2
    · rw [if_pos h2, if_pos (lt_of_le_of_lt ht h2)]
      exact (ih _ (i + 1)).cons₂ _
    · rw [if_neg h2]
      split_ifs with h1
      · exact (ih _ (i + 1)).cons _
      · exact ih _ (i + 1)

/-- With `alpha = 1` every smoothed value equals the sample itself. -/
theorem loop_alpha_one_trend (z_value prev : ℚ) (i : ℕ) (rest : List ℚ) :
    (anomaly_detection_loop 1 z_value prev i rest).1 = rest := by
  induction rest generalizing prev i with
  | nil => rfl
  | cons x rest ih => simp [anomaly_detection_loop, ih]

/-- With `alpha = 1` and a non-negative threshold no anomaly is appended. -/
theorem loop_alpha_one_anomalies (z_value prev : ℚ) (i : ℕ) (rest : List ℚ)
    (hz : 0 ≤ z_value) :
    (anomaly_detection_loop 1 z_value prev i rest).2 = [] := by
  induction rest generalizing prev i with
  | nil => rfl
  | cons x rest ih =>
    simp [anomaly_detection_loop, ih, not_lt.mpr hz]

/-- With `alpha = 0` the smoothed value is frozen at `prev` forever. -/
theorem loop_alpha_zero_trend (z_value prev : ℚ) (i : ℕ) (rest : List ℚ) :
    (anomaly_detection_loop 0 z_value prev i rest).1 =
      List.replicate rest.length prev := by
  induction rest generalizing prev i with
  | nil => rfl
  | cons x rest ih => simp [anomaly_detection_loop, ih, List.replicate_succ]

/-- With a strictly negative threshold every remaining sample is flagged. -/
theorem loop_neg_threshold_length (alpha z_value prev : ℚ) (i : ℕ) (rest : List ℚ)
    (hz : z_value < 0) :
    (anomaly_detection_loop alpha z_value prev i rest).2.length = rest.length := by
  induction rest generalizing prev i with
  | nil => rfl
  | cons x rest ih =>
    have hc : |x - (alpha * x + (1 - alpha) * prev)| > z_value :=
      lt_of_lt_of_le hz (abs_nonneg _)
    simp [anomaly_detection_loop, hc, ih]

/-- Membership characterization of the anomaly output on a nonempty signal:
an index `i ≥ 1` is flagged exactly when the sample deviates from the
same-step smoothed value by more than `z_value`. -/
theorem mem_anomaliesOf_iff (d0 : ℚ) (rest : List ℚ) (alpha z_value : ℚ)
    (i : ℕ) (h1 : 1 ≤ i) (hlt : i < (d0 :: rest).length) :
    ((i, (d0 :: rest).getD i 0) ∈ anomaliesOf (d0 :: rest) alpha z_value ↔
      |(d0 :: rest).getD i 0 -
        (trendOf (d0 :: rest) alpha z_value).getD i 0| > z_value) := by
  obtain ⟨j, rfl⟩ : ∃ j, i = j + 1 := ⟨i - 1, by omega⟩
  have hj : j < rest.length := by simpa using hlt
  rw [anomaliesOf_cons, trendOf_cons]
  simp only [List.getD_cons_succ]
  constructor
  · intro hmem
    obtain ⟨k, hk, hpk, hcond⟩ := loop_mem_anomalies alpha z_value d0 1 rest _ hmem
    have hjk : j = k := by
      have := congrArg Prod.fst hpk
      simpa using by omega
    subst hjk
    exact hcond
  · intro hcond
    have := loop_anomalies_complete alpha z_value d0 1 rest j hj hcond
    simpa [Nat.add_comm] using this

/-- Every entry of the anomaly output on a nonempty signal has an index in
`[1, N)`, carries the original sample value at that index, and witnesses a
deviation from the same-step smoothed value exceeding `z_value`. -/
theorem mem_anomaliesOf_elim (d0 : ℚ) (rest : List ℚ) (alpha z_value : ℚ)
    (p : ℕ × ℚ) (hp : p ∈ anomaliesOf (d0 :: rest) alpha z_value) :
    1 ≤ p.1 ∧ p.1 < (d0 :: rest).length ∧ p.2 = (d0 :: rest).getD p.1 0 ∧
      |(d0 :: rest).getD p.1 0 -
        (trendOf (d0 :: rest) alpha z_value).getD p.1 0| > z_value := by
  rw [anomaliesOf_cons] at hp
  obtain ⟨j, hj, rfl, hcond⟩ := loop_mem_anomalies alpha z_value d0 1 rest p hp
  have h1j : 1 + j = j + 1 := Nat.add_comm 1 j
  refine ⟨by omega, by simp; omega, ?_, ?_⟩
  · rw [show ((1 + j, rest.getD j 0) : ℕ × ℚ).1 = j + 1 from h1j]
    simp
  · rw [show ((1 + j, rest.getD j 0) : ℕ × ℚ).1 = j + 1 from h1j, trendOf_cons]
    simpa using hcond

/-- C1: for every non-empty signal and all alpha, threshold, the trend has the
same length as the signal, its first value equals the first sample exactly,
and every later value satisfies the first-order exponential smoothing
recurrence `trend[i] = alpha * signal[i] + (1 - alpha) * trend[i-1]`. -/
theorem claim_C1 (data : List ℚ) (alpha z_value : ℚ) (h : data ≠ []) :
    (trendOf data alpha z_value).length = data.length ∧
    (trendOf data alpha z_value).getD 0 0 = data.getD 0 0 ∧
    ∀ i, 1 ≤ i → i < data.length →
      (trendOf data alpha z_value).getD i 0 =
        alpha * data.getD i 0 +
          (1 - alpha) * (trendOf data alpha z_value).getD (i - 1) 0 := by
  obtain ⟨d0, rest, rfl⟩ := List.exists_cons_of_ne_nil h
  refine ⟨by simp [trendOf_cons, loop_trend_length], by simp [trendOf_cons], ?_⟩
  intro i h1 hlt
  obtain ⟨k, rfl⟩ : ∃ k, i = k + 1 := ⟨i - 1, by omega⟩
  match k with
  | 0 =>
    obtain ⟨y, rest, rfl⟩ :=
      List.exists_cons_of_ne_nil (show rest ≠ [] by rintro rfl; simp at hlt)
    simp [trendOf_cons, anomaly_detection_loop]
  | k + 1 =>
    have hk : k + 1 < rest.length := by simpa using hlt
    simpa [trendOf_cons] using loop_trend_getD_succ alpha z_value d0 1 rest k hk

/-- C2: on a non-empty signal an index `i ≥ 1` is flagged exactly when the
sample deviates by more than the threshold from the same-step (post-update)
smoothed value `trend[i]`; every flagged entry is the pair
`(i, signal[i])` with the original unsmoothed value, and entries appear in
increasing index order. -/
theorem claim_C2 (data : List ℚ) (alpha z_value : ℚ) (h : data ≠ []) :
    (∀ i, 1 ≤ i → i < data.length →
      ((i, data.getD i 0) ∈ anomaliesOf data alpha z_value ↔
        |data.getD i 0 - (trendOf data alpha z_value).getD i 0| > z_value)) ∧
    (∀ p ∈ anomaliesOf data alpha z_value, p.2 = data.getD p.1 0) ∧
    (anomaliesOf data alpha z_value).Pairwise (fun p q => p.1 < q.1) := by
  obtain ⟨d0, rest, rfl⟩ := List.exists_cons_of_ne_nil h
  refine ⟨fun i h1 hlt => mem_anomaliesOf_iff d0 rest alpha z_value i h1 hlt,
    fun p hp => (mem_anomaliesOf_elim d0 rest alpha z_value p hp).2.2.1, ?_⟩
  rw [anomaliesOf_cons]
  exact loop_anomalies_pairwise alpha z_value d0 1 rest

/-- C3: on a non-empty signal of length N every flagged index lies in
`[1, N)` (index 0 never appears), and the flagged indices are strictly
increasing with no duplicates. -/
theorem claim_C3 (data : List ℚ) (alpha z_value : ℚ) (h : data ≠ []) :
    (∀ p ∈ anomaliesOf data alpha z_value, 1 ≤ p.1 ∧ p.1 < data.length) ∧
    (anomaliesOf data alpha z_value).Pairwise (fun p q => p.1 < q.1) ∧
    ((anomaliesOf data alpha z_value).map Prod.fst).Nodup := by
  obtain ⟨d0, rest, rfl⟩ := List.exists_cons_of_ne_nil h
  have hpw : (anomaliesOf (d0 :: rest) alpha z_value).Pairwise
      (fun p q => p.1 < q.1) := by
    rw [anomaliesOf_cons]
    exact loop_anomalies_pairwise alpha z_value d0 1 rest
  refine ⟨fun p hp => ⟨(mem_anomaliesOf_elim d0 rest alpha z_value p hp).1,
    (mem_anomaliesOf_elim d0 rest alpha z_value p hp).2.1⟩, hpw, ?_⟩
  exact List.Pairwise.map Prod.fst (fun p q hpq => Nat.ne_of_lt hpq) hpw

/-- C4: with `alpha = 1` the trend equals the signal exactly, and with any
non-negative threshold (including 0) the anomaly output is empty. -/
theorem claim_C4 (data : List ℚ) (z_value : ℚ) (h : data ≠ []) (hz : 0 ≤ z_value) :
    trendOf data 1 z_value = data ∧ anomaliesOf data 1 z_value = [] := by
  obtain ⟨d0, rest, rfl⟩ := List.exists_cons_of_ne_nil h
  rw [trendOf_cons, anomaliesOf_cons, loop_alpha_one_trend,
    loop_alpha_one_anomalies _ _ _ _ hz]
  exact ⟨rfl, rfl⟩

/-- C5: for a fixed non-empty signal and fixed alpha the anomaly output is
monotonically non-increasing in the threshold: every anomaly flagged at the
larger threshold is flagged at the smaller one, and the count at the larger
threshold is at most the count at the smaller one. -/
theorem claim_C5 (data : List ℚ) (alpha t1 t2 : ℚ) (h : data ≠ []) (ht : t1 ≤ t2) :
    (∀ p ∈ anomaliesOf data alpha t2, p ∈ anomaliesOf data alpha t1) ∧
    (anomaliesOf data alpha t2).length ≤ (anomaliesOf data alpha t1).length := by
  obtain ⟨d0, rest, rfl⟩ := List.exists_cons_of_ne_nil h
  have hs := loop_anomalies_sublist alpha t1 t2 d0 1 rest ht
  rw [anomaliesOf_cons, anomaliesOf_cons]
  exact ⟨fun p hp => hs.subset hp, hs.length_le⟩

/-- C6: the detector fails exactly on the empty signal (the seed read
`data[0]` is the first operation and fails there before any computation);
for every non-empty signal it returns a result for any alpha and any
threshold. -/
theorem claim_C6 (data : List ℚ) (alpha z_value : ℚ) :
    anomaly_detection data alpha z_value = none ↔ data = [] := by
  match data with
  | [] => simp [anomaly_detection]
  | d0 :: rest => simp [anomaly_detection]

/-- C7: the detector is deterministic: two calls with identical signal,
alpha, and threshold return identical results — it is a pure function of its
inputs. -/
theorem claim_C7 (data1 data2 : List ℚ) (alpha1 alpha2 z1 z2 : ℚ)
    (hd : data1 = data2) (ha : alpha1 = alpha2) (hz : z1 = z2) :
    anomaly_detection data1 alpha1 z1 = anomaly_detection data2 alpha2 z2 := by
  rw [hd, ha, hz]

/-- C8: with `alpha = 0` the trend is frozen at `signal[0]` at every index,
and an index `i ≥ 1` is flagged exactly when
`abs(signal[i] - signal[0]) > threshold`. -/
theorem claim_C8 (data : List ℚ) (z_value : ℚ) (h : data ≠ []) :
    (∀ i < data.length, (trendOf data 0 z_value).getD i 0 = data.getD 0 0) ∧
    (∀ i, 1 ≤ i → i < data.length →
      ((i, data.getD i 0) ∈ anomaliesOf data 0 z_value ↔
        |data.getD i 0 - data.getD 0 0| > z_value)) := by
  obtain ⟨d0, rest, rfl⟩ := List.exists_cons_of_ne_nil h
  have htd : ∀ i, i < (d0 :: rest).length →
      (trendOf (d0 :: rest) 0 z_value).getD i 0 = d0 := by
    intro i hi
    rw [trendOf_cons, loop_alpha_zero_trend]
    match i with
    | 0 => simp
    | i + 1 =>
      have hi2 : i < rest.length := by simpa using hi
      simp [List.getD_eq_getElem?_getD, List.getElem?_replicate, hi2]
  refine ⟨fun i hi => by rw [htd i hi]; simp, fun i h1 hlt => ?_⟩
  rw [mem_anomaliesOf_iff d0 rest 0 z_value i h1 hlt, htd i hlt]
  simp

/-- C9: on the concrete signal `[0, 0, 0, 0, 100]` with `alpha = 1/2` and
`threshold = 10` the detector returns the trend `[0, 0, 0, 0, 50]` and the
single anomaly `(4, 100)`. -/
theorem claim_C9 :
    anomaly_detection [0, 0, 0, 0, 100] (1/2) 10 =
      some ([0, 0, 0, 0, 50], [(4, 100)]) := by
  norm_num [anomaly_detection, anomaly_detection_loop]

/-- C10: with a strictly negative threshold every index `i` with
`1 ≤ i < N` is flagged (the absolute deviation is non-negative, hence above
the threshold), so the anomaly output has exactly `N - 1` entries. -/
theorem claim_C10 (data : List ℚ) (alpha z_value : ℚ) (h : data ≠ [])
    (hz : z_value < 0) :
    (∀ i, 1 ≤ i → i < data.length →
      (i, data.getD i 0) ∈ anomaliesOf data alpha z_value) ∧
    (anomaliesOf data alpha z_value).length = data.length - 1 := by
  obtain ⟨d0, rest, rfl⟩ := List.exists_cons_of_ne_nil h
  constructor
  · intro i h1 hlt
    rw [mem_anomaliesOf_iff d0 rest alpha z_value i h1 hlt]
    exact lt_of_lt_of_le hz (abs_nonneg _)
  · rw [anomaliesOf_cons, loop_neg_threshold_length _ _ _ _ _ hz]
    simp

/-- Witness for C1 at the signal `[0, 2]` with `alpha = 1/2`, threshold 3. -/
theorem claim_C1_witness :
    (trendOf [(0 : ℚ), 2] (1/2) 3).length = ([(0 : ℚ), 2]).length ∧
    (trendOf [(0 : ℚ), 2] (1/2) 3).getD 0 0 = ([(0 : ℚ), 2]).getD 0 0 ∧
    ∀ i, 1 ≤ i → i < ([(0 : ℚ), 2]).length →
      (trendOf [(0 : ℚ), 2] (1/2) 3).getD i 0 =
        (1/2) * ([(0 : ℚ), 2]).getD i 0 +
          (1 - 1/2) * (trendOf [(0 : ℚ), 2] (1/2) 3).getD (i - 1) 0 :=
  claim_C1 [0, 2] (1/2) 3 (by simp)

/-- Witness for C2 at the signal `[0, 2]` with `alpha = 1/2`, threshold 3. -/
theorem claim_C2_witness :
    (∀ i, 1 ≤ i → i < ([(0 : ℚ), 2]).length →
      ((i, ([(0 : ℚ), 2]).getD i 0) ∈ anomaliesOf [(0 : ℚ), 2] (1/2) 3 ↔
        |([(0 : ℚ), 2]).getD i 0 -
          (trendOf [(0 : ℚ), 2] (1/2) 3).getD i 0| > 3)) ∧
    (∀ p ∈ anomaliesOf [(0 : ℚ), 2] (1/2) 3, p.2 = ([(0 : ℚ), 2]).getD p.1 0) ∧
    (anomaliesOf [(0 : ℚ), 2] (1/2) 3).Pairwise (fun p q => p.1 < q.1) :=
  claim_C2 [0, 2] (1/2) 3 (by simp)

/-- Witness for C3 at the signal `[0, 2]` with `alpha = 1/2`, threshold 3. -/
theorem claim_C3_witness :
    (∀ p ∈ anomaliesOf [(0 : ℚ), 2] (1/2) 3,
      1 ≤ p.1 ∧ p.1 < ([(0 : ℚ), 2]).length) ∧
    (anomaliesOf [(0 : ℚ), 2] (1/2) 3).Pairwise (fun p q => p.1 < q.1) ∧
    ((anomaliesOf [(0 : ℚ), 2] (1/2) 3).map Prod.fst).Nodup :=
  claim_C3 [0, 2] (1/2) 3 (by simp)

/-- Witness for C4 at the signal `[5, -5, 5, -5, 5]` with threshold 0
(concrete scenario 3 of the spec). -/
theorem claim_C4_witness :
    trendOf [(5 : ℚ), -5, 5, -5, 5] 1 0 = [(5 : ℚ), -5, 5, -5, 5] ∧
    anomaliesOf [(5 : ℚ), -5, 5, -5, 5] 1 0 = [] :=
  claim_C4 [5, -5, 5, -5, 5] 0 (by simp) (le_refl 0)

/-- Witness for C5 at the signal `[0, 2]` with `alpha = 1/2` and the
threshold pair `1 ≤ 3`. -/
theorem claim_C5_witness :
    (∀ p ∈ anomaliesOf [(0 : ℚ), 2] (1/2) 3,
      p ∈ anomaliesOf [(0 : ℚ), 2] (1/2) 1) ∧
    (anomaliesOf [(0 : ℚ), 2] (1/2) 3).length ≤
      (anomaliesOf [(0 : ℚ), 2] (1/2) 1).length :=
  claim_C5 [0, 2] (1/2) 1 3 (by simp) (by norm_num)

/-- Witness for C7 at the signal `[0, 2]` with `alpha = 1/2`, threshold 3. -/
theorem claim_C7_witness :
    anomaly_detection [(0 : ℚ), 2] (1/2) 3 =
      anomaly_detection [(0 : ℚ), 2] (1/2) 3 :=
  claim_C7 [0, 2] [0, 2] (1/2) (1/2) 3 3 rfl rfl rfl

/-- Witness for C8 at the signal `[0, 2]` with threshold 3. -/
theorem claim_C8_witness :
    (∀ i < ([(0 : ℚ), 2]).length,
      (trendOf [(0 : ℚ), 2] 0 3).getD i 0 = ([(0 : ℚ), 2]).getD 0 0) ∧
    (∀ i, 1 ≤ i → i < ([(0 : ℚ), 2]).length →
      ((i, ([(0 : ℚ), 2]).getD i 0) ∈ anomaliesOf [(0 : ℚ), 2] 0 3 ↔
        |([(0 : ℚ), 2]).getD i 0 - ([(0 : ℚ), 2]).getD 0 0| > 3)) :=
  claim_C8 [0, 2] 3 (by simp)

/-- Witness for C10 at the signal `[0, 2]` with `alpha = 1/2` and the
negative threshold `-1`. -/
theorem claim_C10_witness :
    (∀ i, 1 ≤ i → i < ([(0 : ℚ), 2]).length →
      (i, ([(0 : ℚ), 2]).getD i 0) ∈ anomaliesOf [(0 : ℚ), 2] (1/2) (-1)) ∧
    (anomaliesOf [(0 : ℚ), 2] (1/2) (-1)).length = ([(0 : ℚ), 2]).length - 1 :=
  claim_C10 [0, 2] (1/2) (-1) (by simp) (by norm_num)

end DataDetection
